import Mathlib

/-!
# Verification of the `code_fuzzy_match` fuzzy string matcher

A shallow embedding, in Lean 4, of the scoring algorithm of the
`code-fuzzy-match` crate (`src/lib.rs`), together with proofs of the
behavioural properties claimed by its specification.

The crate exposes a stateful `FuzzyMatcher` with a `fuzzy_match` method and a
stateless `fuzzy_match` wrapper.  The algorithm is a row-reused dynamic
programming sweep: for each query character it sweeps the target characters,
carrying a per-position best score and a per-position count of consecutive
matches, pruned by a monotone cursor (`first_possible_target_idx`).

Rows are modelled as `List Nat` updated with `List.set`; the `fill` and
`copy_from_slice` range operations of the Rust code are modelled by
`fillRange` and `copyRange` below.  A second, panic-checked copy of the
algorithm (`…Checked`) models every slice index and range operation in the
`Option` monad, `none` standing for a Rust panic, and is proved to agree with
the total embedding on every input.
-/

namespace CodeFuzzyMatch

/-- The set of separator characters recognised by the matcher
(`matches!(target_char, '_' | '-' | '.' | ' ' | '\'' | '"' | ':')`,
line 124 of `lib.rs`). -/
def isSeparatorChar (c : Char) : Bool :=
  c == '_' || c == '-' || c == '.' || c == ' ' || c == '\'' || c == '"' || c == ':'

/-- Rust `char::to_lowercase`: the full Unicode lowercase mapping of a code
point, as a sequence of code points.  The mapping itself is external Unicode
table data, not part of the crate.  We model the Latin-1 block (code points
below `0x100`) exactly — there every mapping is a single code point, obtained
by adding 32 on the ranges `A`–`Z`, `À`–`Ö` and `Ø`–`Þ` — and the identity
elsewhere.  The algorithm only consults this function for non-ASCII target
characters, and every claim below is either independent of the mapping's
values or uses ASCII-only inputs. -/
def charToLowercase (c : Char) : List Char :=
  let n := c.toNat
  if (65 ≤ n && n ≤ 90) || (0xC0 ≤ n && n ≤ 0xD6) || (0xD8 ≤ n && n ≤ 0xDE) then
    [Char.ofNat (n + 32)]
  else
    [c]

/-- Rust `char::is_uppercase` (Unicode `Uppercase` property; external table
data, modelled exactly on the Latin-1 block and `false` elsewhere).  The
algorithm only consults it for non-ASCII characters; ASCII uses
`is_ascii_uppercase`, which is `Char.isUpper`. -/
def charIsUnicodeUppercase (c : Char) : Bool :=
  (0xC0 ≤ c.toNat && c.toNat ≤ 0xD6) || (0xD8 ≤ c.toNat && c.toNat ≤ 0xDE)

/-- The word-start uppercase test of lines 198–208 of `lib.rs`: ASCII
characters use `is_ascii_uppercase` (that is `Char.isUpper`), non-ASCII
characters use the full `is_uppercase`. -/
def charIsUppercase (c : Char) : Bool :=
  if c.toNat ≤ 0x7F then c.isUpper else charIsUnicodeUppercase c

/-- The character-match test of lines 148–164 of `lib.rs`: a `/` or `\` in
the target matches a `/` or `\` in the query; otherwise ASCII target
characters compare with `eq_ignore_ascii_case` (both sides mapped through
ASCII lowercasing, which is `Char.toLower`), and non-ASCII target characters
compare by zipping the two full lowercase expansions
(`to_lowercase().zip(to_lowercase()).all(|(a, b)| a == b)`). -/
def charMatches (targetChar queryChar : Char) : Bool :=
  if targetChar == '/' then queryChar == '/' || queryChar == '\\'
  else if targetChar == '\\' then queryChar == '/' || queryChar == '\\'
  else if targetChar.toNat ≤ 0x7F then targetChar.toLower == queryChar.toLower
  else
    ((charToLowercase targetChar).zip (charToLowercase queryChar)).all
      fun p => p.1 == p.2

/-- The per-character score of lines 172–215 of `lib.rs`: base 1, plus 5 per
carried sequential-match count, plus 1 for an exact-case match, plus the
position bonus (8 at position 0; else 5 on a path separator; else 4 on a
separator; else 2 at a word start), plus 2 on the last target position. -/
def charScore (targetChar queryChar : Char) (i targetLen : Nat)
    (seqMatchCount : Nat) (prevIsSeparator : Bool) : Nat :=
  let s1 := 1 + seqMatchCount * 5
  let s2 := if targetChar == queryChar then s1 + 1 else s1
  let s3 :=
    if i == 0 then s2 + 8
    else if targetChar == '/' || targetChar == '\\' then s2 + 5
    else if isSeparatorChar targetChar then s2 + 4
    else if seqMatchCount == 0 then
      if prevIsSeparator then s2 + 2
      else if charIsUppercase targetChar then s2 + 2
      else s2
    else s2
  if i + 1 == targetLen then s3 + 2 else s3

/-- `(&mut v[a..b]).fill(x)` on a row: positions in `[a, b)` become `x`. -/
def fillRange (xs : List Nat) (a b x : Nat) : List Nat :=
  xs.mapIdx fun i v => if a ≤ i && i < b then x else v

/-- `(&mut dst[a..b]).copy_from_slice(&src[a..b])` on rows: positions in
`[a, b)` of `dst` take the corresponding values of `src`. -/
def copyRange (dst src : List Nat) (a b : Nat) : List Nat :=
  dst.mapIdx fun i v => if a ≤ i && i < b then src.getD i 0 else v

/-- The inner sweep of lines 120–232 of `lib.rs`: for query character
`queryChar`, walk target positions `i`, `i+1`, … up to the end of the target,
updating the current `score` and `seqMatchCounts` rows in place.
`prevScore` and `prevSeqMatchCounts` are the rows of the previous query
character; `firstPossibleTargetIdx` is the cursor the sweep started from
(only used for the `i == first_possible_target_idx` test); `prevIsSeparator`
and `firstNonzeroScore` are the loop-carried locals of the same names.
Returns the final `score` row, `seqMatchCounts` row and `firstNonzeroScore`.
The Rust loop `for i in first_possible_target_idx..target_chars.len()` runs
once per position of that range; we model it by structural recursion on the
number of remaining iterations `rem`, invoked with
`rem = target_chars.len() - first_possible_target_idx` so that `i + rem`
always equals the target length. -/
def sweepLoop (targetChars : List Char) (queryChar : Char)
    (firstQueryChar : Bool) (prevScore prevSeqMatchCounts : List Nat)
    (firstPossibleTargetIdx : Nat) :
    Nat → Nat → List Nat → List Nat → Bool → Option Nat →
      List Nat × List Nat × Option Nat
  | 0, _, score, seqMatchCounts, _, firstNonzeroScore =>
    (score, seqMatchCounts, firstNonzeroScore)
  | rem + 1, i, score, seqMatchCounts, prevIsSeparator, firstNonzeroScore =>
    let targetChar := targetChars.getD i ' '
    let targetSeparator := isSeparatorChar targetChar
    let prevTargetScore := if i == firstPossibleTargetIdx then 0 else score.getD (i - 1) 0
    let prevQueryScore := if i == 0 then 0 else prevScore.getD (i - 1) 0
    let seqMatchCount := if i == 0 then 0 else prevSeqMatchCounts.getD (i - 1) 0
    if !firstQueryChar && prevQueryScore == 0 then
      -- fast-skip: the previous query character has no match at or before i-1
      sweepLoop targetChars queryChar firstQueryChar prevScore prevSeqMatchCounts
        firstPossibleTargetIdx rem (i + 1) (score.set i prevTargetScore) seqMatchCounts
        targetSeparator firstNonzeroScore
    else if !charMatches targetChar queryChar then
      -- no match: propagate the best score ending earlier
      sweepLoop targetChars queryChar firstQueryChar prevScore prevSeqMatchCounts
        firstPossibleTargetIdx rem (i + 1) (score.set i prevTargetScore) seqMatchCounts
        targetSeparator firstNonzeroScore
    else
      let cs := charScore targetChar queryChar i targetChars.length seqMatchCount
        prevIsSeparator
      let newScore := prevQueryScore + cs
      if prevTargetScore ≤ newScore then
        sweepLoop targetChars queryChar firstQueryChar prevScore prevSeqMatchCounts
          firstPossibleTargetIdx rem (i + 1) (score.set i newScore)
          (seqMatchCounts.set i (seqMatchCount + 1)) targetSeparator
          (match firstNonzeroScore with
            | none => some i
            | some j => some j)
      else
        sweepLoop targetChars queryChar firstQueryChar prevScore prevSeqMatchCounts
          firstPossibleTargetIdx rem (i + 1) (score.set i prevTargetScore) seqMatchCounts
          targetSeparator firstNonzeroScore

/-- The per-query-character loop of lines 100–253 of `lib.rs`.  Carries the
four rows, the cursor and the `first_query_char` flag; processes the query
characters in order.  Returns the rows as they stand when the loop exits,
and a flag that is `true` exactly when the Rust code takes one of its early
`return None` paths (cursor past the end of the target, or a sweep that set
no nonzero score). -/
def queryLoop (targetChars : List Char) (prevScore prevSeqMatchCounts score seqMatchCounts : List Nat)
    (firstPossibleTargetIdx : Nat) (firstQueryChar : Bool) :
    List Char → (List Nat × List Nat × List Nat × List Nat) × Bool
  | [] => ((prevScore, prevSeqMatchCounts, score, seqMatchCounts), false)
  | queryChar :: rest =>
    if targetChars.length ≤ firstPossibleTargetIdx then
      ((prevScore, prevSeqMatchCounts, score, seqMatchCounts), true)
    else
      let score1 := fillRange score firstPossibleTargetIdx targetChars.length 0
      let seq1 := fillRange seqMatchCounts firstPossibleTargetIdx targetChars.length 0
      let r := sweepLoop targetChars queryChar firstQueryChar prevScore
        prevSeqMatchCounts firstPossibleTargetIdx
        (targetChars.length - firstPossibleTargetIdx) firstPossibleTargetIdx score1 seq1
        false none
      match r.2.2 with
      | some firstNonzero =>
        let prevScore1 := copyRange prevScore r.1 firstNonzero targetChars.length
        let prevSeq1 := copyRange prevSeqMatchCounts r.2.1 firstNonzero targetChars.length
        queryLoop targetChars prevScore1 prevSeq1 r.1 r.2.1 (firstNonzero + 1) false rest
      | none => ((prevScore, prevSeqMatchCounts, r.1, r.2.1), true)

/-- The fuzzy matcher state (`struct FuzzyMatcher`): the captured target
characters and the four working rows, held across calls. -/
structure FuzzyMatcher where
  target_chars : List Char
  prev_seq_match_counts : List Nat
  prev_score : List Nat
  seq_match_counts : List Nat
  score : List Nat

/-- `FuzzyMatcher::new()`: empty buffers. -/
def FuzzyMatcher.new : FuzzyMatcher :=
  ⟨[], [], [], [], []⟩

/-- `FuzzyMatcher::fuzzy_match(&mut self, target, query)`.  Lines 79–94 clear
every buffer and re-initialise it from `target` alone (`clear` followed by
`extend` or `resize(len, 0)`), so the rows entering the query loop are fully
determined by `target`.  Returns the mutated matcher and the score.  The
final score is `prev_score.last().unwrap_or(&0)`, with 0 mapped to `None`. -/
def FuzzyMatcher.fuzzy_match (m : FuzzyMatcher) (target query : String) :
    FuzzyMatcher × Option Nat :=
  let targetChars := target.data
  let n := targetChars.length
  let r := queryLoop targetChars (List.replicate n 0) (List.replicate n 0)
    (List.replicate n 0) (List.replicate n 0) 0 true query.data
  let result :=
    if r.2 then none
    else
      let s := (r.1.1.getLast?).getD 0
      if s == 0 then none else some s
  (⟨targetChars, r.1.2.1, r.1.1, r.1.2.2.2, r.1.2.2.1⟩, result)

/-- The stateless `fuzzy_match` wrapper (lines 283–286 of `lib.rs`): build a
fresh matcher and call the method once. -/
def fuzzy_match (target query : String) : Option Nat :=
  (FuzzyMatcher.new.fuzzy_match target query).2

/-- Running a sequence of `(target, query)` pairs through one matcher
instance, threading the mutated state from call to call, collecting the
returned scores.  This formalises "calling `fuzzy_match` on the pairs in
order through one `FuzzyMatcher` instance". -/
def FuzzyMatcher.runBatch (m : FuzzyMatcher) : List (String × String) → List (Option Nat)
  | [] => []
  | p :: rest =>
    let r := m.fuzzy_match p.1 p.2
    r.2 :: r.1.runBatch rest

/-! ## Specification-side definitions

The spec describes a successful match as the query's characters occurring as
an in-order subsequence of the target's characters under the matcher's
character-equivalence (case-insensitive, `/` ↔ `\`).  `matchesAsSubsequence`
is that relation, written directly from the spec's words; `findFrom` and
`greedyMatchFrom` are the standard greedy formulation used to relate it to
the sweep. -/

/-- `matchesAsSubsequence qs ts` holds when the characters of the query `qs`
can be found, in order, among the characters of the target `ts`, each query
character paired with a target character it matches under `charMatches`. -/
def matchesAsSubsequence : List Char → List Char → Bool
  | [], _ => true
  | _ :: _, [] => false
  | qc :: qs, t :: ts =>
    (charMatches t qc && matchesAsSubsequence qs ts) || matchesAsSubsequence (qc :: qs) ts

/-- The least target index `j` with `start ≤ j < targetChars.length` whose
character matches `qc`, if any. -/
def findFrom (targetChars : List Char) (qc : Char) (start : Nat) : Option Nat :=
  if h : start < targetChars.length then
    if charMatches (targetChars.getD start ' ') qc then some start
    else findFrom targetChars qc (start + 1)
  else none
termination_by targetChars.length - start

/-- Greedy in-order matching of the query characters against target
positions `≥ start`: take the earliest admissible position for each query
character in turn. -/
def greedyMatchFrom (targetChars : List Char) (start : Nat) : List Char → Bool
  | [] => true
  | qc :: qs =>
    match findFrom targetChars qc start with
    | some j => greedyMatchFrom targetChars (j + 1) qs
    | none => false

/-! ## Specification-side per-character score (for the bonus-model claim) -/

/-- The position bonus as the specification words it: 8 at target position 0;
else 5 on a path separator; else 4 on a recognized separator; else 2 at the
start of a word — defined as either immediately following a separator with no
contiguous run active, or being an uppercase letter at a camelCase boundary
(not following a separator) with no contiguous run active; else 0. -/
def specPositionBonus (targetChar : Char) (i seqMatchCount : Nat)
    (prevIsSeparator : Bool) : Nat :=
  if i = 0 then 8
  else if targetChar = '/' ∨ targetChar = '\\' then 5
  else if isSeparatorChar targetChar = true then 4
  else if (prevIsSeparator = true ∧ seqMatchCount = 0) ∨
      (charIsUppercase targetChar = true ∧ prevIsSeparator = false ∧ seqMatchCount = 0) then 2
  else 0

/-- The per-character score as the specification words it: 1 (base), plus
5 × the contiguous-run count carried from the previous query character's row,
plus 1 if target and query characters are identical without case folding,
plus exactly one position bonus, plus 2 at the last target position. -/
def specCharScore (targetChar queryChar : Char) (i targetLen seqMatchCount : Nat)
    (prevIsSeparator : Bool) : Nat :=
  1 + 5 * seqMatchCount + (if targetChar = queryChar then 1 else 0) +
    specPositionBonus targetChar i seqMatchCount prevIsSeparator +
    (if i + 1 = targetLen then 2 else 0)

/-! ## Panic-checked variant

Rust panics on any out-of-bounds index, invalid slice range, or
`copy_from_slice` length mismatch.  The definitions below repeat the
algorithm with every such operation modelled in the `Option` monad — `none`
standing for a panic: `v[i]` becomes `getElem?`, the index-assignment
`v[i] = x` becomes `setChecked`, `(&mut v[a..b]).fill(0)` becomes
`fillChecked`, and `copy_from_slice` on two `[a..b]` slices becomes
`copyChecked`.  `fuzzy_matchChecked` is proved below to return `some` of the
total embedding's result on every input, so no input reaches a panicking
operation. -/

/-- `v[i] = x`: panics unless `i` is in bounds. -/
def setChecked (xs : List Nat) (i v : Nat) : Option (List Nat) :=
  if i < xs.length then some (xs.set i v) else none

/-- `(&mut v[a..b]).fill(0)`: the slice `v[a..b]` panics unless
`a ≤ b ≤ v.len()`. -/
def fillChecked (xs : List Nat) (a b : Nat) : Option (List Nat) :=
  if a ≤ b ∧ b ≤ xs.length then some (fillRange xs a b 0) else none

/-- `(&mut dst[a..b]).copy_from_slice(&src[a..b])`: both slices must be
valid ranges (the two slice lengths are then equal automatically). -/
def copyChecked (dst src : List Nat) (a b : Nat) : Option (List Nat) :=
  if a ≤ b ∧ b ≤ dst.length ∧ b ≤ src.length then some (copyRange dst src a b)
  else none

/-- The inner sweep with panic-checked accesses (explicit `Option.bind`,
`none` = panic). -/
def sweepLoopChecked (targetChars : List Char) (queryChar : Char)
    (firstQueryChar : Bool) (prevScore prevSeqMatchCounts : List Nat)
    (firstPossibleTargetIdx : Nat) :
    Nat → Nat → List Nat → List Nat → Bool → Option Nat →
      Option (List Nat × List Nat × Option Nat)
  | 0, _, score, seqMatchCounts, _, firstNonzeroScore =>
    some (score, seqMatchCounts, firstNonzeroScore)
  | rem + 1, i, score, seqMatchCounts, prevIsSeparator, firstNonzeroScore =>
    (targetChars[i]?).bind fun targetChar =>
    (if i == firstPossibleTargetIdx then some 0 else score[i - 1]?).bind
      fun prevTargetScore =>
    (if i == 0 then some 0 else prevScore[i - 1]?).bind fun prevQueryScore =>
    (if i == 0 then some 0 else prevSeqMatchCounts[i - 1]?).bind fun seqMatchCount =>
    let targetSeparator := isSeparatorChar targetChar
    if !firstQueryChar && prevQueryScore == 0 then
      (setChecked score i prevTargetScore).bind fun score1 =>
      sweepLoopChecked targetChars queryChar firstQueryChar prevScore prevSeqMatchCounts
        firstPossibleTargetIdx rem (i + 1) score1 seqMatchCounts
        targetSeparator firstNonzeroScore
    else if !charMatches targetChar queryChar then
      (setChecked score i prevTargetScore).bind fun score1 =>
      sweepLoopChecked targetChars queryChar firstQueryChar prevScore prevSeqMatchCounts
        firstPossibleTargetIdx rem (i + 1) score1 seqMatchCounts
        targetSeparator firstNonzeroScore
    else
      let cs := charScore targetChar queryChar i targetChars.length seqMatchCount
        prevIsSeparator
      let newScore := prevQueryScore + cs
      if prevTargetScore ≤ newScore then
        (setChecked score i newScore).bind fun score1 =>
        (setChecked seqMatchCounts i (seqMatchCount + 1)).bind fun seq1 =>
        sweepLoopChecked targetChars queryChar firstQueryChar prevScore prevSeqMatchCounts
          firstPossibleTargetIdx rem (i + 1) score1 seq1 targetSeparator
          (match firstNonzeroScore with
            | none => some i
            | some j => some j)
      else
        (setChecked score i prevTargetScore).bind fun score1 =>
        sweepLoopChecked targetChars queryChar firstQueryChar prevScore prevSeqMatchCounts
          firstPossibleTargetIdx rem (i + 1) score1 seqMatchCounts
          targetSeparator firstNonzeroScore

/-- The per-query-character loop with panic-checked accesses. -/
def queryLoopChecked (targetChars : List Char)
    (prevScore prevSeqMatchCounts score seqMatchCounts : List Nat)
    (firstPossibleTargetIdx : Nat) (firstQueryChar : Bool) :
    List Char → Option ((List Nat × List Nat × List Nat × List Nat) × Bool)
  | [] => some ((prevScore, prevSeqMatchCounts, score, seqMatchCounts), false)
  | queryChar :: rest =>
    if targetChars.length ≤ firstPossibleTargetIdx then
      some ((prevScore, prevSeqMatchCounts, score, seqMatchCounts), true)
    else
      (fillChecked score firstPossibleTargetIdx targetChars.length).bind fun score1 =>
      (fillChecked seqMatchCounts firstPossibleTargetIdx targetChars.length).bind
        fun seq1 =>
      (sweepLoopChecked targetChars queryChar firstQueryChar prevScore
        prevSeqMatchCounts firstPossibleTargetIdx
        (targetChars.length - firstPossibleTargetIdx) firstPossibleTargetIdx score1 seq1
        false none).bind fun r =>
      match r.2.2 with
      | some firstNonzero =>
        (copyChecked prevScore r.1 firstNonzero targetChars.length).bind
          fun prevScore1 =>
        (copyChecked prevSeqMatchCounts r.2.1 firstNonzero targetChars.length).bind
          fun prevSeq1 =>
        queryLoopChecked targetChars prevScore1 prevSeq1 r.1 r.2.1 (firstNonzero + 1)
          false rest
      | none => some ((prevScore, prevSeqMatchCounts, r.1, r.2.1), true)

/-- The whole scoring call with panic-checked accesses (the buffer
re-initialisation of lines 79–94 cannot panic; the final
`last().unwrap_or(&0)` is total). -/
def fuzzy_matchChecked (target query : String) : Option (Option Nat) :=
  let targetChars := target.data
  let n := targetChars.length
  (queryLoopChecked targetChars (List.replicate n 0) (List.replicate n 0)
    (List.replicate n 0) (List.replicate n 0) 0 true query.data).bind fun r =>
  if r.2 then some none
  else
    let s := (r.1.1.getLast?).getD 0
    if s == 0 then some none else some (some s)

/-! ## Basic row lemmas -/

theorem getD_set_ne (l : List Nat) (i j v d : Nat) (h : i ≠ j) :
    (l.set i v).getD j d = l.getD j d := by
  simp [List.getD_eq_getElem?_getD, List.getElem?_set_ne h]

theorem getD_set_self (l : List Nat) (j v d : Nat) (h : j < l.length) :
    (l.set j v).getD j d = v := by
  simp [List.getD_eq_getElem?_getD, List.getElem?_set_self', h]

theorem getD_replicate (n x i d : Nat) :
    (List.replicate n x).getD i d = if i < n then x else d := by
  simp [List.getD_eq_getElem?_getD, List.getElem?_replicate]
  split <;> simp

theorem getD_of_length_le (l : List Nat) (i d : Nat) (h : l.length ≤ i) :
    l.getD i d = d := by
  simp [List.getD_eq_getElem?_getD, List.getElem?_eq_none h]

theorem length_fillRange (xs : List Nat) (a b x : Nat) :
    (fillRange xs a b x).length = xs.length := by
  simp [fillRange]

theorem getD_fillRange (xs : List Nat) (a b x i : Nat) (h : i < xs.length) :
    (fillRange xs a b x).getD i 0 =
      if a ≤ i && i < b then x else xs.getD i 0 := by
  simp [fillRange, List.getD_eq_getElem?_getD, List.getElem?_mapIdx, h,
    List.getElem?_eq_getElem h]

theorem length_copyRange (dst src : List Nat) (a b : Nat) :
    (copyRange dst src a b).length = dst.length := by
  simp [copyRange]

theorem getD_copyRange (dst src : List Nat) (a b i : Nat) (h : i < dst.length) :
    (copyRange dst src a b).getD i 0 =
      if a ≤ i && i < b then src.getD i 0 else dst.getD i 0 := by
  simp [copyRange, List.getD_eq_getElem?_getD, List.getElem?_mapIdx, h,
    List.getElem?_eq_getElem h]

theorem getLastD_eq_getD (l : List Nat) :
    (l.getLast?).getD 0 = l.getD (l.length - 1) 0 := by
  rw [List.getLast?_eq_getElem?]
  simp [List.getD_eq_getElem?_getD]

/-- Every character match contributes at least one point. -/
theorem charScore_pos (targetChar queryChar : Char) (i targetLen seqMatchCount : Nat)
    (prevIsSeparator : Bool) :
    1 ≤ charScore targetChar queryChar i targetLen seqMatchCount prevIsSeparator := by
  simp only [charScore]
  repeat' split
  all_goals omega

/-! ## Sweep-loop lemmas

All proofs proceed by structural induction on the remaining iteration count,
unfolding one step of `sweepLoop` and splitting on its branches. -/

theorem sweepLoop_length (tc : List Char) (qc : Char) (fqc : Bool)
    (ps psq : List Nat) (fpti : Nat) :
    ∀ (rem i : Nat) (sc sq : List Nat) (pis : Bool) (fnz : Option Nat),
      (sweepLoop tc qc fqc ps psq fpti rem i sc sq pis fnz).1.length = sc.length ∧
      (sweepLoop tc qc fqc ps psq fpti rem i sc sq pis fnz).2.1.length = sq.length := by
  intro rem
  induction rem with
  | zero =>
    intro i sc sq pis fnz
    exact ⟨rfl, rfl⟩
  | succ n ih =>
    intro i sc sq pis fnz
    rw [sweepLoop.eq_def]
    simp only []
    repeat' split
    all_goals
      exact ⟨by rw [(ih (i + 1) _ _ _ _).1] <;> simp,
        by rw [(ih (i + 1) _ _ _ _).2] <;> simp⟩

theorem sweepLoop_getD_lt (tc : List Char) (qc : Char) (fqc : Bool)
    (ps psq : List Nat) (fpti : Nat) :
    ∀ (rem i : Nat) (sc sq : List Nat) (pis : Bool) (fnz : Option Nat) (j : Nat),
      j < i →
      (sweepLoop tc qc fqc ps psq fpti rem i sc sq pis fnz).1.getD j 0 = sc.getD j 0 := by
  intro rem
  induction rem with
  | zero =>
    intro i sc sq pis fnz j hj
    rfl
  | succ n ih =>
    intro i sc sq pis fnz j hj
    rw [sweepLoop.eq_def]
    simp only []
    repeat' split
    all_goals
      rw [ih (i + 1) _ _ _ _ j (by omega)]
    all_goals
      exact getD_set_ne _ _ _ _ _ (by omega)

theorem sweepLoop_fnz_some (tc : List Char) (qc : Char) (fqc : Bool)
    (ps psq : List Nat) (fpti : Nat) :
    ∀ (rem i : Nat) (sc sq : List Nat) (pis : Bool) (j : Nat),
      (sweepLoop tc qc fqc ps psq fpti rem i sc sq pis (some j)).2.2 = some j := by
  intro rem
  induction rem with
  | zero =>
    intro i sc sq pis j
    rfl
  | succ n ih =>
    intro i sc sq pis j
    rw [sweepLoop.eq_def]
    simp only []
    repeat' split
    all_goals exact ih (i + 1) _ _ _ _

theorem sweepLoop_pos (tc : List Char) (qc : Char) (fqc : Bool)
    (ps psq : List Nat) (fpti : Nat) :
    ∀ (rem i : Nat) (sc sq : List Nat) (pis : Bool) (fnz : Option Nat),
      i + rem = tc.length → fpti < i → sc.length = tc.length →
      0 < sc.getD (i - 1) 0 →
      ∀ k, i - 1 ≤ k → k < tc.length →
      0 < (sweepLoop tc qc fqc ps psq fpti rem i sc sq pis fnz).1.getD k 0 := by
  intro rem
  induction rem with
  | zero =>
    intro i sc sq pis fnz hrem hfpi hlen hpos k hk1 hk2
    have hk : k = i - 1 := by omega
    rw [hk]
    exact hpos
  | succ n ih =>
    intro i sc sq pis fnz hrem hfpi hlen hpos k hk1 hk2
    rw [sweepLoop.eq_def]
    simp only []
    have hif : (i == fpti) = false := by simp only [beq_eq_false_iff_ne, ne_eq]; omega
    have hi0 : (i == 0) = false := by simp only [beq_eq_false_iff_ne, ne_eq]; omega
    simp only [hif, hi0, Bool.false_eq_true, if_false]
    repeat' split
    all_goals
      rcases Nat.lt_or_ge k i with hk | hk
    all_goals first
      | (have hk' : k = i - 1 := by omega
         rw [hk', sweepLoop_getD_lt tc qc fqc ps psq fpti n (i + 1) _ _ _ _ (i - 1) (by omega),
           getD_set_ne _ _ _ _ _ (by omega)]
         exact hpos)
      | (refine ih (i + 1) _ _ _ _ (by omega) (by omega) (by simp [hlen]) ?_ k (by omega) hk2
         rw [Nat.add_sub_cancel, getD_set_self sc i _ 0 (by omega)]
         first
          | exact hpos
          | (have hcs := charScore_pos (tc.getD i ' ') qc i tc.length (psq.getD (i - 1) 0) pis
             omega))

/-! ## findFrom lemmas -/

theorem findFrom_none (tc : List Char) (qc : Char) (i : Nat) (h : tc.length ≤ i) :
    findFrom tc qc i = none := by
  rw [findFrom.eq_def, dif_neg (by omega)]

theorem findFrom_step_yes (tc : List Char) (qc : Char) (i : Nat) (h : i < tc.length)
    (hm : charMatches (tc.getD i ' ') qc = true) :
    findFrom tc qc i = some i := by
  rw [findFrom.eq_def, dif_pos h, if_pos hm]

theorem findFrom_step_no (tc : List Char) (qc : Char) (i : Nat) (h : i < tc.length)
    (hnm : charMatches (tc.getD i ' ') qc = false) :
    findFrom tc qc i = findFrom tc qc (i + 1) := by
  rw [findFrom.eq_def, dif_pos h, if_neg (by rw [hnm]; decide)]

theorem findFrom_bounds_aux (tc : List Char) (qc : Char) :
    ∀ (fuel start : Nat) (j : Nat), tc.length ≤ start + fuel →
      findFrom tc qc start = some j →
      start ≤ j ∧ j < tc.length ∧ charMatches (tc.getD j ' ') qc = true := by
  intro fuel
  induction fuel with
  | zero =>
    intro start j hf h
    rw [findFrom_none tc qc start (by omega)] at h
    cases h
  | succ n ih =>
    intro start j hf h
    by_cases hs : start < tc.length
    · by_cases hm : charMatches (tc.getD start ' ') qc = true
      · rw [findFrom_step_yes tc qc start hs hm] at h
        cases h
        exact ⟨Nat.le_refl _, hs, hm⟩
      · rw [findFrom_step_no tc qc start hs (by simpa using hm)] at h
        have h2 := ih (start + 1) j (by omega) h
        exact ⟨by omega, h2.2.1, h2.2.2⟩
    · rw [findFrom_none tc qc start (by omega)] at h
      cases h

theorem findFrom_bounds (tc : List Char) (qc : Char) (start j : Nat)
    (h : findFrom tc qc start = some j) :
    start ≤ j ∧ j < tc.length ∧ charMatches (tc.getD j ' ') qc = true :=
  findFrom_bounds_aux tc qc tc.length start j (by omega) h

/-- Central sweep characterization: starting a sweep at `i` with a current
row that is zero just before `i`, and previous-row data that is positive on
the live range (or this being the first query character), the sweep's
`first_nonzero_score` is exactly the first matching position at or after `i`,
and when that position exists the final score row is positive from it on. -/
theorem sweepLoop_main_aux (tc : List Char) (qc : Char) (fqc : Bool)
    (ps psq : List Nat) (fpti : Nat)
    (H : fqc = true ∨ (1 ≤ fpti ∧ ∀ k, fpti - 1 ≤ k → k < tc.length → 0 < ps.getD k 0)) :
    ∀ (rem i : Nat) (sc sq : List Nat) (pis : Bool),
      i + rem = tc.length → fpti ≤ i → sc.length = tc.length →
      (i ≠ fpti → sc.getD (i - 1) 0 = 0) →
      (sweepLoop tc qc fqc ps psq fpti rem i sc sq pis none).2.2 = findFrom tc qc i ∧
      (∀ j, findFrom tc qc i = some j → ∀ k, j ≤ k → k < tc.length →
        0 < (sweepLoop tc qc fqc ps psq fpti rem i sc sq pis none).1.getD k 0) := by
  intro rem
  induction rem with
  | zero =>
    intro i sc sq pis hrem hfi hlen hsc0
    rw [findFrom_none tc qc i (by omega)]
    exact ⟨rfl, fun j hj => Option.noConfusion hj⟩
  | succ n ih =>
    intro i sc sq pis hrem hfi hlen hsc0
    have hiN : i < tc.length := by omega
    rw [sweepLoop.eq_def]
    simp only []
    have hpts : (if (i == fpti) = true then 0 else sc.getD (i - 1) 0) = 0 := by
      by_cases hq : (i == fpti) = true
      · rw [if_pos hq]
      · rw [if_neg hq]
        exact hsc0 (by simpa using hq)
    rw [hpts]
    by_cases hskip :
        (!fqc && (if (i == 0) = true then 0 else ps.getD (i - 1) 0) == 0) = true
    case pos =>
      exfalso
      rcases H with Hf | ⟨Hf1, Hpos⟩
      · rw [Hf] at hskip
        simp at hskip
      · have hi0 : ¬((i == 0) = true) := by simp; omega
        rw [if_neg hi0] at hskip
        rw [Bool.and_eq_true] at hskip
        have h2 : ps.getD (i - 1) 0 = 0 := by simpa using hskip.2
        have h3 := Hpos (i - 1) (by omega) (by omega)
        omega
    case neg =>
      rw [if_neg hskip]
      by_cases hm : charMatches (tc.getD i ' ') qc = true
      case neg =>
        have hnm : charMatches (tc.getD i ' ') qc = false := by simpa using hm
        rw [if_pos (show (!charMatches (tc.getD i ' ') qc) = true by rw [hnm]; decide)]
        have hside : i + 1 ≠ fpti → (sc.set i 0).getD (i + 1 - 1) 0 = 0 := by
          intro _
          rw [Nat.add_sub_cancel, getD_set_self sc i 0 0 (by omega)]
        have hrec := ih (i + 1) (sc.set i 0) sq (isSeparatorChar (tc.getD i ' '))
          (by omega) (by omega) (by simp [hlen]) hside
        rw [findFrom_step_no tc qc i hiN hnm]
        exact hrec
      case pos =>
        rw [if_neg (show ¬((!charMatches (tc.getD i ' ') qc) = true) by rw [hm]; decide)]
        rw [if_pos (Nat.zero_le _)]
        rw [findFrom_step_yes tc qc i hiN hm]
        constructor
        · exact sweepLoop_fnz_some tc qc fqc ps psq fpti n (i + 1) _ _ _ i
        · intro j hj k hk1 hk2
          injection hj with hj'
          subst hj'
          refine sweepLoop_pos tc qc fqc ps psq fpti n (i + 1) _ _ _ _ (by omega) (by omega)
            (by simp [hlen]) ?_ k (by omega) hk2
          rw [Nat.add_sub_cancel, getD_set_self sc i _ 0 (by omega)]
          have hcs := charScore_pos (tc.getD i ' ') qc i tc.length
            (if (i == 0) = true then 0 else psq.getD (i - 1) 0) pis
          omega

/-- Outer loop characterization: under the row invariants, the query loop
fails exactly when greedy in-order matching of the remaining query characters
from the cursor fails, and on success the final `prev_score` row is positive
at the last target position. -/
theorem queryLoop_main (tc : List Char) :
    ∀ (qs : List Char) (ps psq sc sq : List Nat) (fpti : Nat) (fqc : Bool),
      ps.length = tc.length → psq.length = tc.length →
      sc.length = tc.length → sq.length = tc.length →
      fpti ≤ tc.length →
      (fqc = true ∨ (1 ≤ fpti ∧ ∀ k, fpti - 1 ≤ k → k < tc.length → 0 < ps.getD k 0)) →
      ((queryLoop tc ps psq sc sq fpti fqc qs).1.1.length = tc.length) ∧
      ((queryLoop tc ps psq sc sq fpti fqc qs).2 = true →
        greedyMatchFrom tc fpti qs = false) ∧
      ((queryLoop tc ps psq sc sq fpti fqc qs).2 = false →
        greedyMatchFrom tc fpti qs = true ∧
        ((fqc = false ∨ qs ≠ []) →
          0 < (queryLoop tc ps psq sc sq fpti fqc qs).1.1.getD (tc.length - 1) 0)) := by
  intro qs
  induction qs with
  | nil =>
    intro ps psq sc sq fpti fqc hps hpsq hsc hsq hfp H
    refine ⟨hps, ?_, ?_⟩
    · intro h
      cases h
    · intro _
      refine ⟨rfl, ?_⟩
      intro hne
      rcases H with Hf | ⟨H1, Hpos⟩
      · rcases hne with hne | hne
        · rw [Hf] at hne
          cases hne
        · exact absurd rfl hne
      · exact Hpos (tc.length - 1) (by omega) (by omega)
  | cons qcq rest ih =>
    intro ps psq sc sq fpti fqc hps hpsq hsc hsq hfp H
    rw [queryLoop]
    by_cases hcur : tc.length ≤ fpti
    case pos =>
      rw [if_pos hcur]
      refine ⟨hps, ?_, ?_⟩
      · intro _
        simp only [greedyMatchFrom, findFrom_none tc qcq fpti hcur]
      · intro h
        cases h
    case neg =>
      rw [if_neg hcur]
      simp only []
      set r := sweepLoop tc qcq fqc ps psq fpti (tc.length - fpti) fpti
        (fillRange sc fpti tc.length 0) (fillRange sq fpti tc.length 0) false none with hr
      have hmain := sweepLoop_main_aux tc qcq fqc ps psq fpti H (tc.length - fpti) fpti
        (fillRange sc fpti tc.length 0) (fillRange sq fpti tc.length 0) false
        (by omega) (Nat.le_refl _) (by rw [length_fillRange]; exact hsc)
        (fun hne => absurd rfl hne)
      have hlen1 : r.1.length = tc.length := by
        rw [hr, (sweepLoop_length tc qcq fqc ps psq fpti (tc.length - fpti) fpti _ _ _ _).1,
          length_fillRange]
        exact hsc
      have hlen2 : r.2.1.length = tc.length := by
        rw [hr, (sweepLoop_length tc qcq fqc ps psq fpti (tc.length - fpti) fpti _ _ _ _).2,
          length_fillRange]
        exact hsq
      cases hfind : findFrom tc qcq fpti with
      | none =>
        rw [hmain.1, hfind]
        refine ⟨hps, ?_, ?_⟩
        · intro _
          simp only [greedyMatchFrom, hfind]
        · intro h
          cases h
      | some fnz =>
        rw [hmain.1, hfind]
        obtain ⟨hfnz1, hfnz2, _⟩ := findFrom_bounds tc qcq fpti fnz hfind
        have hpos := hmain.2 fnz hfind
        have Hnext : (false = true ∨ (1 ≤ fnz + 1 ∧ ∀ k, fnz + 1 - 1 ≤ k → k < tc.length →
            0 < (copyRange ps r.1 fnz tc.length).getD k 0)) := by
          refine Or.inr ⟨by omega, ?_⟩
          intro k hk1 hk2
          rw [getD_copyRange ps r.1 fnz tc.length k (by omega)]
          rw [if_pos (by simp; omega)]
          exact hpos k (by omega) hk2
        have hrec := ih (copyRange ps r.1 fnz tc.length) (copyRange psq r.2.1 fnz tc.length)
          r.1 r.2.1 (fnz + 1) false
          (by rw [length_copyRange]; exact hps)
          (by rw [length_copyRange]; exact hpsq)
          hlen1 hlen2 (by omega) Hnext
        refine ⟨hrec.1, ?_, ?_⟩
        · intro h
          simp only [greedyMatchFrom, hfind]
          exact hrec.2.1 h
        · intro h
          constructor
          · simp only [greedyMatchFrom, hfind]
            exact (hrec.2.2 h).1
          · intro _
            exact (hrec.2.2 h).2 (Or.inl rfl)

/-! ## Greedy matching agrees with the subsequence relation -/

theorem matchesAsSubsequence_cons_target (t : Char) (qs ts : List Char)
    (h : matchesAsSubsequence qs ts = true) :
    matchesAsSubsequence qs (t :: ts) = true := by
  cases qs with
  | nil => rfl
  | cons q qs' => simp [matchesAsSubsequence, h]

theorem matchesAsSubsequence_of_cons (ts : List Char) :
    ∀ (q : Char) (qs : List Char),
      matchesAsSubsequence (q :: qs) ts = true → matchesAsSubsequence qs ts = true := by
  induction ts with
  | nil =>
    intro q qs h
    cases h
  | cons t ts' ih =>
    intro q qs h
    simp only [matchesAsSubsequence, Bool.or_eq_true, Bool.and_eq_true] at h
    rcases h with ⟨_, h1⟩ | h2
    · exact matchesAsSubsequence_cons_target t qs ts' h1
    · exact matchesAsSubsequence_cons_target t qs ts' (ih q qs h2)

theorem greedy_eq_subseq_aux (tc : List Char) :
    ∀ (fuel start : Nat) (qs : List Char), tc.length ≤ start + fuel →
      greedyMatchFrom tc start qs = matchesAsSubsequence qs (tc.drop start) := by
  intro fuel
  induction fuel with
  | zero =>
    intro start qs hf
    rw [List.drop_eq_nil_of_le (by omega)]
    cases qs with
    | nil => rfl
    | cons q qs' =>
      simp only [greedyMatchFrom, findFrom_none tc q start (by omega)]
      rfl
  | succ n ih =>
    intro start qs hf
    by_cases hs : start < tc.length
    case neg =>
      rw [List.drop_eq_nil_of_le (by omega)]
      cases qs with
      | nil => rfl
      | cons q qs' =>
        simp only [greedyMatchFrom, findFrom_none tc q start (by omega)]
        rfl
    case pos =>
      have hdrop : tc.drop start = tc.getD start ' ' :: tc.drop (start + 1) := by
        rw [List.drop_eq_getElem_cons hs, List.getD_eq_getElem tc ' ' hs]
      cases qs with
      | nil =>
        rw [hdrop]
        rfl
      | cons q qs' =>
        by_cases hm : charMatches (tc.getD start ' ') q = true
        case pos =>
          simp only [greedyMatchFrom, findFrom_step_yes tc q start hs hm]
          rw [ih (start + 1) qs' (by omega), hdrop]
          simp only [matchesAsSubsequence, hm, Bool.true_and]
          cases hqs : matchesAsSubsequence qs' (tc.drop (start + 1)) with
          | true => simp
          | false =>
            simp only [Bool.false_or]
            cases hq2 : matchesAsSubsequence (q :: qs') (tc.drop (start + 1)) with
            | false => rfl
            | true =>
              have h3 := matchesAsSubsequence_of_cons _ q qs' hq2
              rw [hqs] at h3
              cases h3
        case neg =>
          have hnm : charMatches (tc.getD start ' ') q = false := by simpa using hm
          have hstep : greedyMatchFrom tc start (q :: qs') =
              greedyMatchFrom tc (start + 1) (q :: qs') := by
            simp only [greedyMatchFrom, findFrom_step_no tc q start hs hnm]
          rw [hstep, ih (start + 1) (q :: qs') (by omega), hdrop]
          simp only [matchesAsSubsequence, hnm, Bool.false_and, Bool.false_or]

/-- Greedy matching from position `start` succeeds exactly when the query is
a matching subsequence of the corresponding target suffix. -/
theorem greedyMatchFrom_eq_matchesAsSubsequence (tc : List Char) (start : Nat)
    (qs : List Char) :
    greedyMatchFrom tc start qs = matchesAsSubsequence qs (tc.drop start) :=
  greedy_eq_subseq_aux tc tc.length start qs (by omega)

/-! ## Characterization of `fuzzy_match` -/

theorem fuzzy_match_none_of_not_subseq (target query : String)
    (h : matchesAsSubsequence query.data target.data = false) :
    fuzzy_match target query = none := by
  have hq := queryLoop_main target.data query.data
    (List.replicate target.data.length 0) (List.replicate target.data.length 0)
    (List.replicate target.data.length 0) (List.replicate target.data.length 0)
    0 true (by simp) (by simp) (by simp) (by simp) (by omega) (Or.inl rfl)
  simp only [fuzzy_match, FuzzyMatcher.fuzzy_match, FuzzyMatcher.new]
  set r := queryLoop target.data
    (List.replicate target.data.length 0) (List.replicate target.data.length 0)
    (List.replicate target.data.length 0) (List.replicate target.data.length 0)
    0 true query.data with hr
  cases hr2 : r.2 with
  | true => rw [if_pos rfl]
  | false =>
    exfalso
    have hg := (hq.2.2 hr2).1
    rw [greedyMatchFrom_eq_matchesAsSubsequence, List.drop_zero, h] at hg
    cases hg

theorem fuzzy_match_some_of_subseq (target query : String)
    (hne : query.data ≠ [])
    (h : matchesAsSubsequence query.data target.data = true) :
    ∃ s, fuzzy_match target query = some s := by
  have hq := queryLoop_main target.data query.data
    (List.replicate target.data.length 0) (List.replicate target.data.length 0)
    (List.replicate target.data.length 0) (List.replicate target.data.length 0)
    0 true (by simp) (by simp) (by simp) (by simp) (by omega) (Or.inl rfl)
  simp only [fuzzy_match, FuzzyMatcher.fuzzy_match, FuzzyMatcher.new]
  set r := queryLoop target.data
    (List.replicate target.data.length 0) (List.replicate target.data.length 0)
    (List.replicate target.data.length 0) (List.replicate target.data.length 0)
    0 true query.data with hr
  cases hr2 : r.2 with
  | true =>
    exfalso
    have hg := hq.2.1 hr2
    rw [greedyMatchFrom_eq_matchesAsSubsequence, List.drop_zero, h] at hg
    cases hg
  | false =>
    have hpos := (hq.2.2 hr2).2 (Or.inr hne)
    rw [if_neg Bool.false_ne_true]
    have hs : ((r.1.1.getLast?).getD 0) = r.1.1.getD (target.data.length - 1) 0 := by
      rw [getLastD_eq_getD, hq.1]
    rw [hs, if_neg (by simp only [beq_iff_eq]; omega)]
    exact ⟨_, rfl⟩

theorem fuzzy_match_some_ge_one (target query : String) (s : Nat)
    (h : fuzzy_match target query = some s) : 1 ≤ s := by
  simp only [fuzzy_match, FuzzyMatcher.fuzzy_match, FuzzyMatcher.new] at h
  split at h
  · cases h
  · split at h
    case isFalse h0 =>
      injection h with h'
      have hne : ((queryLoop target.data
        (List.replicate target.data.length 0) (List.replicate target.data.length 0)
        (List.replicate target.data.length 0) (List.replicate target.data.length 0)
        0 true query.data).1.1.getLast?).getD 0 ≠ 0 := by simpa using h0
      omega
    case isTrue h0 => cases h

/-- The stateful method's returned score, in terms of the stateless wrapper:
the method re-initialises every buffer from `target` before computing, so the
score is independent of the instance's prior state. -/
theorem FuzzyMatcher_fuzzy_match_snd (m : FuzzyMatcher) (target query : String) :
    (m.fuzzy_match target query).2 = fuzzy_match target query := rfl

/-! ## Panic-checked variant agrees with the total embedding -/

set_option maxHeartbeats 1000000 in
theorem sweepLoopChecked_eq (tc : List Char) (qc : Char) (fqc : Bool)
    (ps psq : List Nat) (fpti : Nat)
    (hps : ps.length = tc.length) (hpsq : psq.length = tc.length) :
    ∀ (rem i : Nat) (sc sq : List Nat) (pis : Bool) (fnz : Option Nat),
      i + rem ≤ tc.length → sc.length = tc.length → sq.length = tc.length →
      sweepLoopChecked tc qc fqc ps psq fpti rem i sc sq pis fnz =
        some (sweepLoop tc qc fqc ps psq fpti rem i sc sq pis fnz) := by
  intro rem
  induction rem with
  | zero =>
    intro i sc sq pis fnz hb hsc hsq
    rfl
  | succ n ih =>
    intro i sc sq pis fnz hb hsc hsq
    have hiN : i < tc.length := by omega
    rw [sweepLoopChecked.eq_def]
    rw [sweepLoop.eq_def]
    simp only []
    have hA : tc[i]? = some (tc.getD i ' ') := by
      rw [List.getElem?_eq_getElem hiN, List.getD_eq_getElem tc ' ' hiN]
    have hPTS : (if (i == fpti) = true then (some 0 : Option Nat) else sc[i - 1]?) =
        some (if (i == fpti) = true then 0 else sc.getD (i - 1) 0) := by
      split
      · rfl
      · rw [List.getElem?_eq_getElem (show i - 1 < sc.length by omega),
          List.getD_eq_getElem sc 0 (show i - 1 < sc.length by omega)]
    have hPQS : (if (i == 0) = true then (some 0 : Option Nat) else ps[i - 1]?) =
        some (if (i == 0) = true then 0 else ps.getD (i - 1) 0) := by
      split
      · rfl
      · rw [List.getElem?_eq_getElem (show i - 1 < ps.length by omega),
          List.getD_eq_getElem ps 0 (show i - 1 < ps.length by omega)]
    have hSMC : (if (i == 0) = true then (some 0 : Option Nat) else psq[i - 1]?) =
        some (if (i == 0) = true then 0 else psq.getD (i - 1) 0) := by
      split
      · rfl
      · rw [List.getElem?_eq_getElem (show i - 1 < psq.length by omega),
          List.getD_eq_getElem psq 0 (show i - 1 < psq.length by omega)]
    rw [hA, hPTS, hPQS, hSMC]
    simp only [Option.bind_eq_bind, Option.some_bind]
    by_cases hskip :
        (!fqc && (if (i == 0) = true then 0 else ps.getD (i - 1) 0) == 0) = true
    · rw [if_pos hskip, if_pos hskip]
      rw [setChecked, if_pos (show i < sc.length by omega)]
      simp only [Option.bind_eq_bind, Option.some_bind]
      exact ih (i + 1) _ _ _ _ (by omega) (by simp [hsc]) hsq
    · rw [if_neg hskip, if_neg hskip]
      by_cases hm : (!charMatches (tc.getD i ' ') qc) = true
      · rw [if_pos hm, if_pos hm]
        rw [setChecked, if_pos (show i < sc.length by omega)]
        simp only [Option.bind_eq_bind, Option.some_bind]
        exact ih (i + 1) _ _ _ _ (by omega) (by simp [hsc]) hsq
      · rw [if_neg hm, if_neg hm]
        by_cases hge :
            (if (i == fpti) = true then 0 else sc.getD (i - 1) 0) ≤
              (if (i == 0) = true then 0 else ps.getD (i - 1) 0) +
                charScore (tc.getD i ' ') qc i tc.length
                  (if (i == 0) = true then 0 else psq.getD (i - 1) 0) pis
        · rw [if_pos hge, if_pos hge]
          rw [setChecked, if_pos (show i < sc.length by omega)]
          simp only [Option.bind_eq_bind, Option.some_bind]
          rw [setChecked, if_pos (show i < sq.length by omega)]
          simp only [Option.bind_eq_bind, Option.some_bind]
          exact ih (i + 1) _ _ _ _ (by omega) (by simp [hsc]) (by simp [hsq])
        · rw [if_neg hge, if_neg hge]
          rw [setChecked, if_pos (show i < sc.length by omega)]
          simp only [Option.bind_eq_bind, Option.some_bind]
          exact ih (i + 1) _ _ _ _ (by omega) (by simp [hsc]) hsq


theorem sweepLoop_fnz_bound (tc : List Char) (qc : Char) (fqc : Bool)
    (ps psq : List Nat) (fpti : Nat) :
    ∀ (rem i : Nat) (sc sq : List Nat) (pis : Bool) (j : Nat),
      (sweepLoop tc qc fqc ps psq fpti rem i sc sq pis none).2.2 = some j →
      i ≤ j ∧ j + 1 ≤ i + rem := by
  intro rem
  induction rem with
  | zero =>
    intro i sc sq pis j h
    exact Option.noConfusion h
  | succ n ih =>
    intro i sc sq pis j h
    rw [sweepLoop.eq_def] at h
    simp only [] at h
    repeat' split at h
    all_goals first
      | (obtain ⟨h1, h2⟩ := ih (i + 1) _ _ _ _ h
         exact ⟨by omega, by omega⟩)
      | (rw [sweepLoop_fnz_some] at h
         injection h with h'
         omega)

theorem queryLoopChecked_eq (tc : List Char) :
    ∀ (qs : List Char) (ps psq sc sq : List Nat) (fpti : Nat) (fqc : Bool),
      ps.length = tc.length → psq.length = tc.length →
      sc.length = tc.length → sq.length = tc.length →
      fpti ≤ tc.length →
      queryLoopChecked tc ps psq sc sq fpti fqc qs =
        some (queryLoop tc ps psq sc sq fpti fqc qs) := by
  intro qs
  induction qs with
  | nil =>
    intro ps psq sc sq fpti fqc hps hpsq hsc hsq hfp
    rfl
  | cons qcq rest ih =>
    intro ps psq sc sq fpti fqc hps hpsq hsc hsq hfp
    rw [queryLoopChecked, queryLoop]
    by_cases hcur : tc.length ≤ fpti
    · rw [if_pos hcur, if_pos hcur]
    · rw [if_neg hcur, if_neg hcur]
      simp only []
      rw [fillChecked, if_pos ⟨by omega, by omega⟩]
      simp only [Option.bind_eq_bind, Option.some_bind]
      rw [fillChecked, if_pos ⟨by omega, by omega⟩]
      simp only [Option.bind_eq_bind, Option.some_bind]
      rw [sweepLoopChecked_eq tc qcq fqc ps psq fpti hps hpsq
        (tc.length - fpti) fpti _ _ false none (by omega)
        (by rw [length_fillRange]; exact hsc) (by rw [length_fillRange]; exact hsq)]
      simp only [Option.some_bind]
      set SW := sweepLoop tc qcq fqc ps psq fpti (tc.length - fpti) fpti
        (fillRange sc fpti tc.length 0) (fillRange sq fpti tc.length 0)
        false none with hSW
      have hlen1 : SW.1.length = tc.length := by
        rw [hSW, (sweepLoop_length tc qcq fqc ps psq fpti (tc.length - fpti) fpti _ _ _ _).1,
          length_fillRange]
        exact hsc
      have hlen2 : SW.2.1.length = tc.length := by
        rw [hSW, (sweepLoop_length tc qcq fqc ps psq fpti (tc.length - fpti) fpti _ _ _ _).2,
          length_fillRange]
        exact hsq
      cases hfz : SW.2.2 with
      | none => rfl
      | some fnz =>
        obtain ⟨hb1, hb2⟩ := sweepLoop_fnz_bound tc qcq fqc ps psq fpti
          (tc.length - fpti) fpti _ _ false fnz hfz
        show (copyChecked ps SW.1 fnz tc.length).bind (fun prevScore1 =>
            (copyChecked psq SW.2.1 fnz tc.length).bind fun prevSeq1 =>
              queryLoopChecked tc prevScore1 prevSeq1 SW.1 SW.2.1 (fnz + 1) false rest) =
          some (queryLoop tc (copyRange ps SW.1 fnz tc.length)
            (copyRange psq SW.2.1 fnz tc.length) SW.1 SW.2.1 (fnz + 1) false rest)
        rw [copyChecked, if_pos ⟨by omega, by omega, by omega⟩]
        simp only [Option.bind_eq_bind, Option.some_bind]
        rw [copyChecked, if_pos ⟨by omega, by omega, by omega⟩]
        simp only [Option.bind_eq_bind, Option.some_bind]
        exact ih _ _ _ _ (fnz + 1) false
          (by rw [length_copyRange]; exact hps)
          (by rw [length_copyRange]; exact hpsq)
          hlen1 hlen2 (by omega)


/-! ## Claim theorems -/

/-- C1: No-match completeness — whenever the query's characters cannot be
found as an in-order, case-insensitive subsequence of the target's characters
(with `/` and `\` treated as equivalent), both the stateless `fuzzy_match`
function and the `FuzzyMatcher.fuzzy_match` method return `none`. -/
theorem claim_C1_no_match_completeness (target query : String) (m : FuzzyMatcher)
    (h : matchesAsSubsequence query.data target.data = false) :
    fuzzy_match target query = none ∧ (m.fuzzy_match target query).2 = none := by
  have h1 := fuzzy_match_none_of_not_subseq target query h
  rw [FuzzyMatcher_fuzzy_match_snd]
  exact ⟨h1, h1⟩

/-- Witness for C1 at a concrete input from the crate's own test suite. -/
theorem claim_C1_no_match_completeness_witness :
    matchesAsSubsequence ("cat" : String).data ("the quick brown fox" : String).data = false ∧
    fuzzy_match "the quick brown fox" "cat" = none :=
  ⟨by decide,
    (claim_C1_no_match_completeness "the quick brown fox" "cat" FuzzyMatcher.new (by decide)).1⟩

/-- C9: Match existence — every non-empty query whose characters do occur as
an in-order subsequence of the target under the matcher's character
equivalence is accepted: `fuzzy_match` returns `some`. -/
theorem claim_C9_match_existence (target query : String)
    (hne : query.data ≠ [])
    (h : matchesAsSubsequence query.data target.data = true) :
    (fuzzy_match target query).isSome = true := by
  obtain ⟨s, hs⟩ := fuzzy_match_some_of_subseq target query hne h
  rw [hs]
  rfl

/-- Witness for C9 at a concrete input from the crate's own test suite. -/
theorem claim_C9_match_existence_witness :
    ("bro fox" : String).data ≠ [] ∧
    matchesAsSubsequence ("bro fox" : String).data ("the quick brown fox" : String).data = true ∧
    (fuzzy_match "the quick brown fox" "bro fox").isSome = true :=
  ⟨by decide, by decide,
    claim_C9_match_existence "the quick brown fox" "bro fox" (by decide) (by decide)⟩

/-- C5: Positivity — a returned score is always at least 1; `some 0` is never
produced (0 is reserved as the not-matched sentinel and mapped to `none`). -/
theorem claim_C5_positivity (target query : String) (s : Nat)
    (h : fuzzy_match target query = some s) : 1 ≤ s :=
  fuzzy_match_some_ge_one target query s h

/-- Witness for C5 at a concrete input. -/
theorem claim_C5_positivity_witness :
    fuzzy_match "ab" "a" = some 10 ∧ 1 ≤ 10 :=
  ⟨by decide, claim_C5_positivity "ab" "a" 10 (by decide)⟩

/-- C4: Empty-query boundary — for every target string, including the empty
one, matching against the empty query returns `none`. -/
theorem claim_C4_empty_query (target : String) : fuzzy_match target "" = none := by
  simp only [fuzzy_match, FuzzyMatcher.fuzzy_match, FuzzyMatcher.new]
  simp only [queryLoop]
  rw [if_neg Bool.false_ne_true]
  have hs : (((List.replicate target.data.length 0 : List Nat).getLast?).getD 0) = 0 := by
    rw [getLastD_eq_getD, getD_replicate]
    split <;> rfl
  rw [hs]
  rfl

/-- C2: Reuse equivalence — the stateful method returns exactly the stateless
function's result on every call, and running any sequence of pairs through
one instance yields, pair for pair, the stateless results: a call's outcome
never depends on earlier calls on the same instance. -/
theorem claim_C2_reuse_equivalence (m : FuzzyMatcher) (target query : String)
    (pairs : List (String × String)) :
    (m.fuzzy_match target query).2 = fuzzy_match target query ∧
    m.runBatch pairs = pairs.map fun p => fuzzy_match p.1 p.2 := by
  refine ⟨rfl, ?_⟩
  induction pairs generalizing m with
  | nil => rfl
  | cons p rest ih =>
    simp only [FuzzyMatcher.runBatch, List.map]
    rw [FuzzyMatcher_fuzzy_match_snd, ih]

/-- C3: Per-character bonus model — the score contributed by a matched query
character equals 1 (base) + 5 × the carried contiguous-run count + 1 for an
identical-case match + exactly one position bonus (8 at position 0; else 5 on
a path separator; else 4 on a separator; else 2 at a word start; else 0) + 2
at the last target position; in `sweepLoop` the candidate score is, by
definition, this `charScore` added to the previous query character's score at
position i−1 (`newScore := prevQueryScore + cs`). -/
theorem claim_C3_char_score_model (targetChar queryChar : Char)
    (i targetLen seqMatchCount : Nat) (prevIsSeparator : Bool) :
    charScore targetChar queryChar i targetLen seqMatchCount prevIsSeparator =
      specCharScore targetChar queryChar i targetLen seqMatchCount prevIsSeparator := by
  simp only [charScore, specCharScore, specPositionBonus, Bool.or_eq_true, beq_iff_eq]
  split_ifs <;> first | rfl | omega | simp_all | (exfalso; omega)

/-- C6: Monotonic case bonus — on `"The quick brown fox"` both `"The"` and
`"the"` match, and the exact-case query scores strictly higher. -/
theorem claim_C6_case_bonus :
    ∃ a b, fuzzy_match "The quick brown fox" "The" = some a ∧
      fuzzy_match "The quick brown fox" "the" = some b ∧ b < a :=
  ⟨29, 28, by decide, by decide, by decide⟩

/-- C7: Path separator equivalence — a `/` or `\` in the target matches
either `/` or `\` in the query, and both `"/ls"` and `"\ls"` match
`"/bin/ls"`. -/
theorem claim_C7_path_separator :
    (∀ c : Char, charMatches '/' c = (c == '/' || c == '\\') ∧
      charMatches '\\' c = (c == '/' || c == '\\')) ∧
    (∃ a, fuzzy_match "/bin/ls" "/ls" = some a) ∧
    (∃ b, fuzzy_match "/bin/ls" "\\ls" = some b) :=
  ⟨fun c => ⟨rfl, rfl⟩, ⟨21, by decide⟩, ⟨20, by decide⟩⟩

/-- C8 counterexample: the claim requires `score("xz") < score("ee")`
strictly, but on the crate's own ranking-test target both queries score
exactly 4, so the strict inequality fails (the crate's test only requires
the stable-sorted order, which ties satisfy). -/
theorem claim_C8_ranking_counterexample :
    fuzzy_match "The quick brown fox jumps over the lazy dog." "xz" = some 4 ∧
    fuzzy_match "The quick brown fox jumps over the lazy dog." "ee" = some 4 ∧
    ¬(4 < 4) :=
  ⟨by decide, by decide, by decide⟩

/-- C8 (amended): on the ranking-test target the queries `"xz"`, `"ee"` and
`"fx"` all match with `score("xz") ≤ score("ee") < score("fx")` (the first
two tie at 4), and `"quick cat"`, `"jmp the cat"` and `"dog the fox"` all
fail to match. -/
theorem claim_C8_ranking_order :
    fuzzy_match "The quick brown fox jumps over the lazy dog." "xz" = some 4 ∧
    fuzzy_match "The quick brown fox jumps over the lazy dog." "ee" = some 4 ∧
    fuzzy_match "The quick brown fox jumps over the lazy dog." "fx" = some 6 ∧
    4 ≤ 4 ∧ 4 < 6 ∧
    fuzzy_match "The quick brown fox jumps over the lazy dog." "quick cat" = none ∧
    fuzzy_match "The quick brown fox jumps over the lazy dog." "jmp the cat" = none ∧
    fuzzy_match "The quick brown fox jumps over the lazy dog." "dog the fox" = none :=
  ⟨by decide, by decide, by decide, by decide, by decide, by decide, by decide, by decide⟩

/-- C10: Totality — on every input, every slice index, range and copy in
the algorithm is in bounds: the panic-checked run returns `some` of the
total embedding's result for all target and query strings, so no input can
cause an out-of-range access. -/
theorem claim_C10_totality (target query : String) :
    fuzzy_matchChecked target query = some (fuzzy_match target query) := by
  simp only [fuzzy_matchChecked, fuzzy_match, FuzzyMatcher.fuzzy_match, FuzzyMatcher.new]
  rw [queryLoopChecked_eq target.data query.data _ _ _ _ 0 true (by simp) (by simp)
    (by simp) (by simp) (by omega)]
  simp only [Option.bind_eq_bind, Option.some_bind]
  split
  · rfl
  · split <;> rfl


end CodeFuzzyMatch
